import Mathlib

/-
  Verification of the raven controller utility helpers
  (pkg/yurtmanager/controller/raven/utils/utils.go).

  The Go helpers are shallowly embedded: the generic value trees produced by
  decoding structured configuration documents become the inductive `Value`;
  Go maps become association lists read through `List.lookup`; fallible Go
  functions returning `(T, error)` become `Except String T`; machine integers
  are modelled as `Nat`/`Int` with explicit `% 2 ^ w` where overflow matters.
-/

set_option maxRecDepth 8192

namespace RavenUtils

/-- Generic structured value: the tree shape produced by `json.Unmarshal` into
an `interface\x7b\x7d` in Go (objects, arrays, scalars).  Object fields are kept as an
association list whose order models the (observable) enumeration order of the
entries; Go maps themselves are unordered, so two lists that are permutations
of one another denote the same map.  Numbers are modelled by the integer
subset of JSON numbers. -/
inductive Value : Type where
  | null : Value
  | bool (b : Bool) : Value
  | num (n : Int) : Value
  | str (s : String) : Value
  | arr (xs : List Value) : Value
  | obj (kvs : List (String × Value)) : Value

/-- Lexicographic order on character sequences by code point, the order in
which the canonical serializer emits map keys. -/
def strLeB : List Char → List Char → Bool
  | [], _ => true
  | _ :: _, [] => false
  | c :: cs, d :: ds =>
    if c.toNat < d.toNat then true
    else if d.toNat < c.toNat then false
    else strLeB cs ds

/-- Strict lexicographic order on character sequences by code point. -/
def strLtB : List Char → List Char → Bool
  | [], [] => false
  | [], _ :: _ => true
  | _ :: _, [] => false
  | c :: cs, d :: ds =>
    if c.toNat < d.toNat then true
    else if d.toNat < c.toNat then false
    else strLtB cs ds

/-- Key order on object entries: compare the field names lexicographically. -/
def keyLE (p q : String × Value) : Prop := strLeB p.1.toList q.1.toList = true

/-- Strict key order on object entries. -/
def keyLT (p q : String × Value) : Prop := strLtB p.1.toList q.1.toList = true

instance : DecidableRel keyLE := fun p q =>
  inferInstanceAs (Decidable (strLeB p.1.toList q.1.toList = true))

instance : DecidableRel keyLT := fun p q =>
  inferInstanceAs (Decidable (strLtB p.1.toList q.1.toList = true))

/-- Sort a list of object entries by key, lexicographically.  This models the
deterministic, key-sorted order in which both `encoding/json` and the yaml
serializer emit the entries of a Go map. -/
def sortPairs (l : List (String × Value)) : List (String × Value) :=
  List.insertionSort keyLE l

mutual

/-- Canonical form of a value: every object's entry list is recursively
brought into sorted key order.  This is the net effect, on the generic value
tree, of the `json.Marshal` / `json.Unmarshal` round trip followed by the
key-sorted serialization: the entry order of the original Go map is not
observable in the output, only the sorted order is. -/
def canonV : Value → Value
  | .null => .null
  | .bool b => .bool b
  | .num n => .num n
  | .str s => .str s
  | .arr xs => .arr (canonL xs)
  | .obj kvs => .obj (sortPairs (canonP kvs))

/-- Canonical form of each element of an array. -/
def canonL : List Value → List Value
  | [] => []
  | v :: t => canonV v :: canonL t

/-- Canonical form of each value of an object entry list (keys unchanged). -/
def canonP : List (String × Value) → List (String × Value)
  | [] => []
  | (k, v) :: t => (k, canonV v) :: canonP t

end

mutual

/-- Semantic equality test on generic values: equal scalars, pointwise equal
arrays, and objects that bind the same keys to semantically equal values
independently of entry order. -/
def semEqV : Value → Value → Bool
  | .null, .null => true
  | .bool b, .bool b' => b == b'
  | .num n, .num n' => n == n'
  | .str s, .str s' => s == s'
  | .arr xs, .arr ys => semEqL xs ys
  | .obj l1, .obj l2 => l1.length == l2.length && semEqP l1 l2
  | _, _ => false

/-- Pointwise semantic equality of array elements. -/
def semEqL : List Value → List Value → Bool
  | [], [] => true
  | x :: xs, y :: ys => semEqV x y && semEqL xs ys
  | _, _ => false

/-- Every entry of the first object has a semantically equal binding in the
second object. -/
def semEqP : List (String × Value) → List (String × Value) → Bool
  | [], _ => true
  | (k, v) :: t, l2 =>
    (match l2.lookup k with
     | some w => semEqV v w
     | none => false) && semEqP t l2

end

/-- Duplicate-freedom test for a list of keys. -/
def nodupKeys : List String → Bool
  | [] => true
  | k :: t => !t.contains k && nodupKeys t

mutual

/-- Well-formedness of a generic value: every object entry list binds
pairwise distinct keys, as is automatic for a tree decoded from a Go map. -/
def wfV : Value → Bool
  | .null => true
  | .bool _ => true
  | .num _ => true
  | .str _ => true
  | .arr xs => wfL xs
  | .obj kvs => nodupKeys (kvs.map Prod.fst) && wfP kvs

/-- Well-formedness of each element of an array. -/
def wfL : List Value → Bool
  | [] => true
  | v :: t => wfV v && wfL t

/-- Well-formedness of each value of an object entry list. -/
def wfP : List (String × Value) → Bool
  | [] => true
  | (_, v) :: t => wfV v && wfP t

end

/-- Is the value rendered inline as a single scalar token (scalars, and the
flow forms of empty collections)? -/
def isScalarV : Value → Bool
  | .null => true
  | .bool _ => true
  | .num _ => true
  | .str _ => true
  | .arr xs => xs.isEmpty
  | .obj kvs => kvs.isEmpty

/-- Characters a string scalar may contain while being emitted unquoted. -/
def plainSafeChar (c : Char) : Bool :=
  c.isAlphanum || c == '-' || c == '_' || c == '.' || c == '/'

/-- Strings that would be misread as another scalar kind and therefore must
be quoted. -/
def mustQuote (s : String) : Bool :=
  s == "" || s == "null" || s == "true" || s == "false" || s.toList.all Char.isDigit

/-- Escape one character for a double-quoted scalar. -/
def escChar (c : Char) : List Char :=
  if c == '"' then ['\\', '"']
  else if c == '\\' then ['\\', '\\']
  else if c == '\n' then ['\\', 'n']
  else [c]

/-- Escape every character for a double-quoted scalar. -/
def escList : List Char → List Char
  | [] => []
  | c :: t => escChar c ++ escList t

/-- Render a string scalar, quoting it when it could be misread. -/
def quoteStr (s : String) : String :=
  if s.toList.all plainSafeChar && !(mustQuote s) then s
  else "\"" ++ String.mk (escList s.toList) ++ "\""

/-- Render a scalar value as its single-token textual form (`arr`/`obj` only
occur here in their empty flow forms). -/
def renderScalar : Value → String
  | .null => "null"
  | .bool b => if b then "true" else "false"
  | .num n => toString n
  | .str s => quoteStr s
  | .arr _ => "[]"
  | .obj _ => "\x7b\x7d"

/-- A run of `n` indentation spaces. -/
def indentStr (n : Nat) : String := String.mk (List.replicate n ' ')

mutual

/-- Block-style rendering of a non-scalar value at the given indentation. -/
def yamlBlock : Nat → Value → String
  | n, .arr xs => yamlSeq n xs
  | n, .obj kvs => yamlMap n kvs
  | n, v => indentStr n ++ renderScalar v ++ "\n"

/-- Block-style rendering of the items of a sequence. -/
def yamlSeq : Nat → List Value → String
  | _, [] => ""
  | n, v :: t =>
    (if isScalarV v then indentStr n ++ "- " ++ renderScalar v ++ "\n"
     else indentStr n ++ "-\n" ++ yamlBlock (n + 4) v) ++ yamlSeq n t

/-- Block-style rendering of the entries of a mapping, in list order. -/
def yamlMap : Nat → List (String × Value) → String
  | _, [] => ""
  | n, (k, v) :: t =>
    (if isScalarV v then indentStr n ++ quoteStr k ++ ": " ++ renderScalar v ++ "\n"
     else indentStr n ++ quoteStr k ++ ":\n" ++ yamlBlock (n + 4) v) ++ yamlMap n t

end

/-- Render a whole document: a single scalar line, or a block rendering at
indentation 0; the document always ends with a newline. -/
def yamlTop (v : Value) : String :=
  if isScalarV v then renderScalar v ++ "\n" else yamlBlock 0 v

/-- Models `PrettyYaml` from utils.go: `yaml.Marshal` (gopkg.in/yaml.v3) of a
generic value, whose encoder emits the entries of every Go map in a stable
sorted key order.  The sorted traversal is expressed by pre-sorting the tree
with `canonV` and then rendering structurally; the textual details of the
rendering are a faithful-in-structure model of the yaml block style.
`yaml.Marshal` cannot fail on a generic value tree, so the logged-and-ignored
error branch of the Go code is not reachable in this model and the result is
always the rendered document. -/
def PrettyYaml (v : Value) : String := yamlTop (canonV v)

/-- Word size for the SHA-256/224 compression function. -/
def w32 : Nat := 2 ^ 32

/-- Right rotation of a 32-bit word. -/
def rotr (n x : Nat) : Nat := (x / 2 ^ n + x % 2 ^ n * 2 ^ (32 - n)) % w32

/-- Logical right shift of a 32-bit word. -/
def shr (n x : Nat) : Nat := x / 2 ^ n

/-- Bitwise complement of a 32-bit word. -/
def not32 (x : Nat) : Nat := Nat.xor x (w32 - 1)

/-- SHA-256 big sigma 0. -/
def bsig0 (x : Nat) : Nat := Nat.xor (Nat.xor (rotr 2 x) (rotr 13 x)) (rotr 22 x)

/-- SHA-256 big sigma 1. -/
def bsig1 (x : Nat) : Nat := Nat.xor (Nat.xor (rotr 6 x) (rotr 11 x)) (rotr 25 x)

/-- SHA-256 small sigma 0. -/
def ssig0 (x : Nat) : Nat := Nat.xor (Nat.xor (rotr 7 x) (rotr 18 x)) (shr 3 x)

/-- SHA-256 small sigma 1. -/
def ssig1 (x : Nat) : Nat := Nat.xor (Nat.xor (rotr 17 x) (rotr 19 x)) (shr 10 x)

/-- SHA-256 choose function. -/
def chF (x y z : Nat) : Nat := Nat.xor (Nat.land x y) (Nat.land (not32 x) z)

/-- SHA-256 majority function. -/
def majF (x y z : Nat) : Nat :=
  Nat.xor (Nat.xor (Nat.land x y) (Nat.land x z)) (Nat.land y z)

/-- The eight 32-bit working registers of the compression function. -/
structure Hash8 where
  a : Nat
  b : Nat
  c : Nat
  d : Nat
  e : Nat
  f : Nat
  g : Nat
  h : Nat

/-- SHA-224 initial hash value (FIPS 180-4). -/
def sha224Init : Hash8 :=
  ⟨3238371032, 914150663, 812702999, 4144912697,
   4290775857, 1750603025, 1694076839, 3204075428⟩

/-- The 64 SHA-256 round constants (FIPS 180-4). -/
def kConst : List Nat :=
  [1116352408, 1899447441, 3049323471, 3921009573,
   961987163, 1508970993, 2453635748, 2870763221,
   3624381080, 310598401, 607225278, 1426881987,
   1925078388, 2162078206, 2614888103, 3248222580,
   3835390401, 4022224774, 264347078, 604807628,
   770255983, 1249150122, 1555081692, 1996064986,
   2554220882, 2821834349, 2952996808, 3210313671,
   3336571891, 3584528711, 113926993, 338241895,
   666307205, 773529912, 1294757372, 1396182291,
   1695183700, 1986661051, 2177026350, 2456956037,
   2730485921, 2820302411, 3259730800, 3345764771,
   3516065817, 3600352804, 4094571909, 275423344,
   430227734, 506948616, 659060556, 883997877,
   958139571, 1322822218, 1537002063, 1747873779,
   1955562222, 2024104815, 2227730452, 2361852424,
   2428436474, 2756734187, 3204031479, 3329325298]

/-- Pad a byte message per FIPS 180-4: append 0x80, zeros to 56 mod 64, and
the 64-bit big-endian bit length. -/
def padBytes (msg : List Nat) : List Nat :=
  let padLen := (119 - msg.length % 64) % 64
  let bitLen := 8 * msg.length % 2 ^ 64
  msg ++ 0x80 :: List.replicate padLen 0 ++
    [bitLen / 2 ^ 56 % 256, bitLen / 2 ^ 48 % 256, bitLen / 2 ^ 40 % 256, bitLen / 2 ^ 32 % 256,
     bitLen / 2 ^ 24 % 256, bitLen / 2 ^ 16 % 256, bitLen / 2 ^ 8 % 256, bitLen % 256]

/-- Group bytes into big-endian 32-bit words. -/
def toWords : List Nat → List Nat
  | b0 :: b1 :: b2 :: b3 :: t => (((b0 * 256 + b1) * 256 + b2) * 256 + b3) :: toWords t
  | _ => []

/-- Split a byte message into 64-byte blocks; the fuel argument bounds the
recursion depth and, once initialized to the list length, never runs out
because every step consumes at least one byte. -/
def chunksGo : Nat → List Nat → List (List Nat)
  | _, [] => []
  | 0, _ => []
  | fuel + 1, l => l.take 64 :: chunksGo fuel (l.drop 64)

/-- Split a byte message into 64-byte blocks. -/
def chunks64 (l : List Nat) : List (List Nat) := chunksGo l.length l

/-- Append the next word of the SHA-256 message schedule. -/
def extendW (w : List Nat) : List Nat :=
  w ++ [(w.getD (w.length - 16) 0 + ssig0 (w.getD (w.length - 15) 0) +
         w.getD (w.length - 7) 0 + ssig1 (w.getD (w.length - 2) 0)) % w32]

/-- Extend the 16 block words to the 64-entry message schedule. -/
def schedule (ws : List Nat) : List Nat :=
  (List.range 48).foldl (fun w _ => extendW w) ws

/-- One round of the SHA-256 compression function. -/
def roundStep (st : Hash8) (kw : Nat × Nat) : Hash8 :=
  let t1 := (st.h + bsig1 st.e + chF st.e st.f st.g + kw.1 + kw.2) % w32
  let t2 := (bsig0 st.a + majF st.a st.b st.c) % w32
  ⟨(t1 + t2) % w32, st.a, st.b, st.c, (st.d + t1) % w32, st.e, st.f, st.g⟩

/-- Compress one 64-byte block into the running hash value. -/
def compress (hv : Hash8) (block : List Nat) : Hash8 :=
  let st := ((kConst.zip (schedule (toWords block))).foldl roundStep hv)
  ⟨(hv.a + st.a) % w32, (hv.b + st.b) % w32, (hv.c + st.c) % w32, (hv.d + st.d) % w32,
   (hv.e + st.e) % w32, (hv.f + st.f) % w32, (hv.g + st.g) % w32, (hv.h + st.h) % w32⟩

/-- Big-endian bytes of a 32-bit word. -/
def wordBytes (w : Nat) : List Nat :=
  [w / 2 ^ 24 % 256, w / 2 ^ 16 % 256, w / 2 ^ 8 % 256, w % 256]

/-- SHA-224 digest (28 bytes) of a byte message: SHA-256 with the SHA-224
initial value, truncated to the first seven words (crypto/sha256 `Sum224`). -/
def sha224Bytes (msg : List Nat) : List Nat :=
  let dg := (chunks64 (padBytes msg)).foldl compress sha224Init
  wordBytes dg.a ++ wordBytes dg.b ++ wordBytes dg.c ++ wordBytes dg.d ++
  wordBytes dg.e ++ wordBytes dg.f ++ wordBytes dg.g

/-- UTF-8 encoding of one character. -/
def utf8Char (c : Char) : List Nat :=
  let n := c.toNat
  if n < 0x80 then [n]
  else if n < 0x800 then [0xC0 + n / 64, 0x80 + n % 64]
  else if n < 0x10000 then [0xE0 + n / 4096, 0x80 + n / 64 % 64, 0x80 + n % 64]
  else [0xF0 + n / 262144, 0x80 + n / 4096 % 64, 0x80 + n / 64 % 64, 0x80 + n % 64]

/-- UTF-8 encoding of a character sequence (Go strings are UTF-8 bytes). -/
def utf8Bytes : List Char → List Nat
  | [] => []
  | c :: t => utf8Char c ++ utf8Bytes t

/-- The lowercase hexadecimal digit character for a value below 16 (the
character `hex.EncodeToString` selects from its digit table). -/
def hexDigit (n : Nat) : Char := Char.ofNat (if n < 10 then 48 + n else 87 + n)

/-- Two-character lowercase hexadecimal form of a byte. -/
def hexByte (b : Nat) : List Char := [hexDigit (b / 16 % 16), hexDigit (b % 16)]

/-- Hexadecimal encoding of a byte sequence (`hex.EncodeToString`). -/
def hexCat : List Nat → List Char
  | [] => []
  | b :: t => hexByte b ++ hexCat t

/-- Is the character a lowercase hexadecimal digit (`0`-`9`, `a`-`f`)? -/
def isLowerHex (c : Char) : Bool :=
  c.isDigit || (decide (97 ≤ c.toNat) && decide (c.toNat ≤ 102))

/-- Models `computeHash` from utils.go: `strings.ToLower` of the hex encoding
of `sha256.Sum224` of the UTF-8 bytes of the input.  `strings.ToLower` is
applied characterwise, which agrees with the Go function on the ASCII output
of the hex encoder. -/
def computeHash (target : String) : String :=
  String.mk ((hexCat (sha224Bytes (utf8Bytes target.toList))).map Char.toLower)

/-- The `interface\x7b\x7d` argument of `HashObject`: either a value that
serializes to JSON (`ok`), or a value `json.Marshal` rejects, such as a
channel, a function value or a cyclic structure (`bad`). -/
inductive GoAny : Type where
  | ok (v : Value) : GoAny
  | bad : GoAny

/-- Models the `json.Marshal` / `json.Unmarshal` round trip of `HashObject` on
a marshalable value: serialization emits every Go map with sorted keys and
decoding into `interface\x7b\x7d` produces a generic tree whose map entry
enumeration is not influenced by the original entry order; the net effect on
the generic tree is the recursive key sort `canonV`. -/
def jsonRoundTrip (v : Value) : Value := canonV v

/-- Models `HashObject` from utils.go.  For a marshalable value the JSON
round trip normalizes the tree and the yaml form of the result is hashed.
When `json.Marshal` fails its error is discarded (`data, _ :=`), the
subsequent `json.Unmarshal` of the nil byte slice fails and is only logged,
and the generic value stays nil, so the yaml form of nil (`null`) is hashed;
no failure is ever returned to the caller. -/
def HashObject : GoAny → String
  | .ok v => computeHash (PrettyYaml (jsonRoundTrip v))
  | .bad => computeHash (PrettyYaml Value.null)

/-- Is the character a decimal or hexadecimal digit (`0-9a-fA-F`)? -/
def isHexDigitCh (ch : Char) : Bool :=
  ch.isDigit || (decide (97 ≤ ch.toNat) && decide (ch.toNat ≤ 102)) ||
    (decide (65 ≤ ch.toNat) && decide (ch.toNat ≤ 70))

/-- One step state machine for the dotted-quad parse of `net.ParseIP`
(netip `parseIPv4Fields`): `val` is the value of the current octet, `digLen`
its digit count and `pos` the number of completed octets.  An octet must be
at most 255 with no leading zero; dots may not start or end the string, be
adjacent, or produce more than four fields. -/
def ipv4Loop : List Char → Nat → Nat → Nat → Bool
  | [], _, _, pos => pos == 3
  | ch :: rest, val, digLen, pos =>
    if ch.isDigit then
      if digLen == 1 && val == 0 then false
      else
        let v := val * 10 + (ch.toNat - 48)
        if 255 < v then false else ipv4Loop rest v (digLen + 1) pos
    else if ch == '.' then
      if digLen == 0 || rest.isEmpty || pos == 3 then false
      else ipv4Loop rest 0 0 (pos + 1)
    else false

/-- Validity of a dotted-quad IPv4 literal per `net.ParseIP`. -/
def ipv4Ok (cs : List Char) : Bool := ipv4Loop cs 0 0 0

/-- Consume a run of hexadecimal digits, returning its length and the rest. -/
def grabHex : List Char → Nat → (Nat × List Char)
  | [], n => (n, [])
  | ch :: rest, n => if isHexDigitCh ch then grabHex rest (n + 1) else (n, ch :: rest)

/-- Final acceptance check of the IPv6 parse: all input consumed, and the
address is complete exactly when no `::` has to expand (an address that is
already 16 bytes long must not additionally contain a `::`). -/
def ipv6Final (s : List Char) (i : Nat) (ell : Bool) : Bool :=
  s.isEmpty && (if i < 16 then ell else !ell)

/-- Main loop of the IPv6 parse of `net.ParseIP` (netip `parseIPv6`): `i`
counts address bytes already produced, `ell` records whether a `::` was
seen.  Each iteration reads a hex group of one to four digits, which is
followed by the end of input, an embedded dotted-quad in the final position,
a single colon and more input, or one `::` (only once).  The fuel argument,
initialized above the input length, never runs out because every iteration
consumes at least one character. -/
def ipv6Iter : Nat → List Char → Nat → Bool → Bool
  | 0, _, _, _ => false
  | fuel + 1, s, i, ell =>
    if 16 ≤ i then ipv6Final s i ell
    else
      let g := grabHex s 0
      if g.1 == 0 then false
      else if 4 < g.1 then false
      else
        match g.2 with
        | '.' :: _ =>
          (ell || i == 12) && decide (i + 4 ≤ 16) && ipv4Ok s && ipv6Final [] (i + 4) ell
        | [] => ipv6Final [] (i + 2) ell
        | ':' :: [] => false
        | ':' :: ':' :: rest2 =>
          if ell then false
          else if rest2.isEmpty then ipv6Final [] (i + 2) true
          else ipv6Iter fuel rest2 (i + 2) true
        | ':' :: rest2 => ipv6Iter fuel rest2 (i + 2) ell
        | _ => false

/-- Validity of an IPv6 literal per `net.ParseIP`: a zone suffix (`%`) is
rejected (netip demands a non-empty zone and `net.parseIP` then discards the
address), a leading `::` may stand alone, and otherwise the main loop runs. -/
def ipv6Ok (cs : List Char) : Bool :=
  if cs.contains '%' then false
  else
    match cs with
    | ':' :: ':' :: rest =>
      if rest.isEmpty then true else ipv6Iter (rest.length + 1) rest 0 true
    | _ => ipv6Iter (cs.length + 1) cs 0 false

/-- Models `net.ParseIP(s) != nil` from the Go standard library (not part of
this repository): scan for the first `.`, `:` or `%`; a dot selects the
dotted-quad parse of the whole string, a colon the IPv6 parse, and a `%` or
the absence of any such character is invalid. -/
def goParseIP (s : String) : Bool :=
  match s.toList.find? (fun ch => ch == '.' || ch == ':' || ch == '%') with
  | some '.' => ipv4Ok s.toList
  | some ':' => ipv6Ok s.toList
  | _ => false

/-- One entry of `node.Status.Addresses` (corev1.NodeAddress). -/
structure NodeAddress where
  type : String
  address : String

/-- The fields of a corev1.Node that the helpers read: `Name`, the `Labels`
map (modelled as an association list read through `List.lookup`), the Unix
seconds of `CreationTimestamp`, and `Status.Addresses`. -/
structure Node where
  name : String
  labels : List (String × String)
  creationTimestamp : Int
  addresses : List NodeAddress

/-- The corev1.NodeInternalIP address type tag. -/
def NodeInternalIP : String := "InternalIP"

/-- Modelled from the spec: the designated provider public-IP label key
(`raven.LabelNodeProviderPublicIP`, declared outside this excerpt); the
helpers depend only on it being one fixed key. -/
def LabelNodeProviderPublicIP : String := "raven.openyurt.io/public-ip"

/-- Modelled from the spec: the endpoint-candidate label key
(`raven.LabelEndpointCandidate`, declared outside this excerpt). -/
def LabelEndpointCandidate : String := "raven.openyurt.io/endpoint-candidate"

/-- Modelled from the spec: the tunnel endpoint type tag (`v1beta1.Tunnel`,
declared outside this excerpt). -/
def TunnelType : String := "tunnel"

/-- Modelled from the spec: the default tunnel server exposed port
(`v1beta1.DefaultTunnelServerExposedPort`, declared outside this excerpt). -/
def DefaultTunnelServerExposedPort : Nat := 4500

/-- The `ConfigCreationTimestampKey` constant of utils.go. -/
def ConfigCreationTimestampKey : String := "config-creation-time"

/-- The loop of `GetNodeInternalIP`: assign and break at the first address of
internal-IP type whose address parses as an IP literal. -/
def internalIPLoop : List NodeAddress → String
  | [] => ""
  | addr :: rest =>
    if addr.type == NodeInternalIP && goParseIP addr.address then addr.address
    else internalIPLoop rest

/-- Models `GetNodeInternalIP` from utils.go. -/
def GetNodeInternalIP (node : Node) : String := internalIPLoop node.addresses

/-- The predicate the spec describes for the internal-IP lookup: the entry is
flagged internal and its address is a valid IP literal. -/
def internalIPPred (addr : NodeAddress) : Bool :=
  addr.type == NodeInternalIP && goParseIP addr.address

/-- Models `GetEdgeNodePublicIP` from utils.go; the `(string, error)` result
becomes `Except String String` (error text abbreviated: the `%v` rendering of
the label map is omitted). -/
def GetEdgeNodePublicIP (node : Node) : Except String String :=
  match node.labels.lookup LabelNodeProviderPublicIP with
  | none =>
    .error ("failed to get public ip, no label " ++ LabelNodeProviderPublicIP ++
      " on node " ++ node.name)
  | some ip =>
    if goParseIP ip then .ok ip
    else
      .error ("failed to get public ip, invalid public IP label " ++
        LabelNodeProviderPublicIP ++ ", " ++ ip ++ " on node " ++ node.name)

/-- Models `IsNodeEndpointCandidate` from utils.go: the candidate label must
be present with the exact value "true". -/
def IsNodeEndpointCandidate (node : Node) : Bool :=
  match node.labels.lookup LabelEndpointCandidate with
  | some value => value == "true"
  | none => false

/-- The fields of a ravenv1beta1.Endpoint that
`TryCreateActiveEndpointCandidate` fills in. -/
structure Endpoint where
  nodeName : String
  publicIP : String
  underNAT : Bool
  epType : String
  port : Nat
  config : List (String × String)

/-- Models `TryCreateActiveEndpointCandidate` from utils.go: the candidate
label must merely be present (its value is not read), the public IP comes
from `GetEdgeNodePublicIP`, and the endpoint is filled with the node name,
tunnel type, the default tunnel server port and a config map holding the
node's creation timestamp in decimal (`fmt.Sprintf` with `%d`).  Error texts
are abbreviated as in `GetEdgeNodePublicIP`. -/
def TryCreateActiveEndpointCandidate (node : Node) : Except String Endpoint :=
  match node.labels.lookup LabelEndpointCandidate with
  | none => .error ("node does not have candidate label " ++ LabelEndpointCandidate)
  | some _ =>
    match GetEdgeNodePublicIP node with
    | .error e =>
      .error ("node missing public ip with label " ++ LabelNodeProviderPublicIP ++ ": " ++ e)
    | .ok publicIP =>
      .ok { nodeName := node.name, publicIP := publicIP, underNAT := false,
            epType := TunnelType, port := DefaultTunnelServerExposedPort,
            config := [(ConfigCreationTimestampKey, toString node.creationTimestamp)] }

/-- The `Data` field of the raven-cfg ConfigMap (a Go string map, modelled as
an association list read through `List.lookup`). -/
structure ConfigMap where
  data : List (String × String)

/-- The `DefaultEnableL7Proxy` constant of utils.go. -/
def DefaultEnableL7Proxy : Bool := false

/-- The `DefaultEnableL3Tunnel` constant of utils.go. -/
def DefaultEnableL3Tunnel : Bool := true

/-- The `RavenEnableProxy` ConfigMap key of utils.go. -/
def RavenEnableProxy : String := "enable-l7-proxy"

/-- The `RavenEnableTunnel` ConfigMap key of utils.go. -/
def RavenEnableTunnel : String := "enable-l3-tunnel"

/-- Characterwise ASCII lowercasing; agrees with Go `strings.ToLower` on the
ASCII flag values the config keys hold. -/
def toLowerStr (s : String) : String := String.mk (s.toList.map Char.toLower)

/-- Models `CheckServer` from utils.go.  The `client.Get` of the raven-cfg
ConfigMap in kube-system is modelled by the `Option ConfigMap` argument:
`none` when the Get fails (resource absent), `some` its data otherwise.  The
result is the pair `(enableProxy, enableTunnel)`. -/
def CheckServer (cm : Option ConfigMap) : Bool × Bool :=
  let enableTunnel := DefaultEnableL3Tunnel
  let enableProxy := DefaultEnableL7Proxy
  match cm with
  | none => (enableProxy, enableTunnel)
  | some c =>
    let enableProxy1 :=
      match c.data.lookup RavenEnableProxy with
      | some val => if toLowerStr val == "true" then true else enableProxy
      | none => enableProxy
    let enableTunnel1 :=
      match c.data.lookup RavenEnableTunnel with
      | some val => if toLowerStr val == "true" then true else enableTunnel
      | none => enableTunnel
    (enableProxy1, enableTunnel1)

/-- Digit run folded into the value it denotes in base 10. -/
def digitsVal : List Char → Nat → Nat
  | [], acc => acc
  | ch :: rest, acc => digitsVal rest (acc * 10 + (ch.toNat - 48))

/-- The uint64 parse loop of `strconv.ParseUint` in base 10: digits only,
with an error as soon as the running value leaves the 64-bit range. -/
def goParseUintLoop : List Char → Nat → Option Nat
  | [], acc => some acc
  | ch :: rest, acc =>
    if ch.isDigit then
      let acc' := acc * 10 + (ch.toNat - 48)
      if 2 ^ 64 ≤ acc' then none else goParseUintLoop rest acc'
    else none

/-- Models `strconv.Atoi` (that is `strconv.ParseInt(s, 10, 0)` with 64-bit
`int`) from the Go standard library, acting on the character list of the
input: an optional sign followed by at least one digit, rejected on any
other character or when the value leaves the int64 range; every error is
collapsed into `none`. -/
def goAtoiList : List Char → Option Int
  | [] => none
  | ch :: rest =>
    if (if ch == '-' || ch == '+' then rest else ch :: rest).isEmpty then none
    else
      match goParseUintLoop (if ch == '-' || ch == '+' then rest else ch :: rest) 0 with
      | none => none
      | some un =>
        if !(ch == '-') && decide (2 ^ 63 ≤ un) then none
        else if (ch == '-') && decide (2 ^ 63 < un) then none
        else if ch == '-' then some (-(un : Int)) else some ((un : Int))

/-- Models `strconv.Atoi` on a string. -/
def goAtoi (s : String) : Option Int := goAtoiList s.toList

/-- Models `IsValidPort` from utils.go. -/
def IsValidPort (s : String) : Bool :=
  if s == "" then false
  else
    match goAtoi s with
    | none => false
    | some port => if port < 0 ∨ 65535 < port then false else true

/-- Follows the spec: a character list parses as a base-10 integer when it
is an optional sign followed by one or more decimal digits, and its value
is the signed decimal value (no machine-width restriction). -/
def specDecimalValList : List Char → Option Int
  | [] => none
  | ch :: rest =>
    if (if ch == '-' || ch == '+' then rest else ch :: rest).isEmpty
        || !(if ch == '-' || ch == '+' then rest else ch :: rest).all Char.isDigit then
      none
    else if ch == '-' then
      some (-(digitsVal (if ch == '-' || ch == '+' then rest else ch :: rest) 0 : Int))
    else some ((digitsVal (if ch == '-' || ch == '+' then rest else ch :: rest) 0 : Int))

/-- Follows the spec: a string parses as a base-10 integer when its
character list does. -/
def specDecimalVal (s : String) : Option Int := specDecimalValList s.toList

/-- Adjacent-pairs check that a key list is in lexicographic order. -/
def chainKeysLe : List String → Bool
  | [] => true
  | [_] => true
  | k1 :: k2 :: t => strLeB k1.toList k2.toList && chainKeysLe (k2 :: t)

mutual

/-- Every object entry list of the value has its keys in lexicographic
order, hereditarily. -/
def keysSortedV : Value → Bool
  | .null => true
  | .bool _ => true
  | .num _ => true
  | .str _ => true
  | .arr xs => keysSortedL xs
  | .obj kvs => chainKeysLe (kvs.map Prod.fst) && keysSortedP kvs

/-- Hereditarily sorted keys in each element of an array. -/
def keysSortedL : List Value → Bool
  | [] => true
  | v :: t => keysSortedV v && keysSortedL t

/-- Hereditarily sorted keys in each value of an object entry list. -/
def keysSortedP : List (String × Value) → Bool
  | [] => true
  | (_, v) :: t => keysSortedV v && keysSortedP t

end

/-- The reading of the config-flag sentence under which a present flag value
determines the returned boolean by its case-insensitive match against
"true", and an absent resource or key yields the fixed default. -/
def checkServerClaimC8 : Prop :=
  CheckServer none = (DefaultEnableL7Proxy, DefaultEnableL3Tunnel) ∧
  ∀ c : ConfigMap,
    (c.data.lookup RavenEnableProxy = none →
      (CheckServer (some c)).1 = DefaultEnableL7Proxy) ∧
    (∀ v, c.data.lookup RavenEnableProxy = some v →
      (CheckServer (some c)).1 = (toLowerStr v == "true")) ∧
    (c.data.lookup RavenEnableTunnel = none →
      (CheckServer (some c)).2 = DefaultEnableL3Tunnel) ∧
    (∀ v, c.data.lookup RavenEnableTunnel = some v →
      (CheckServer (some c)).2 = (toLowerStr v == "true"))

/-- The proxy flag the amended config-flag sentence predicts: false unless
the key is present with a value case-insensitively equal to "true". -/
def proxyFlagSpec : Option ConfigMap → Bool
  | none => DefaultEnableL7Proxy
  | some c =>
    match c.data.lookup RavenEnableProxy with
    | some val => toLowerStr val == "true"
    | none => DefaultEnableL7Proxy

/-- Concrete generic map `\x7b"a":1,"b":2\x7d` in one insertion order. -/
def exOrdA : Value := .obj [("a", .num 1), ("b", .num 2)]

/-- The same generic map built in the other insertion order. -/
def exOrdB : Value := .obj [("b", .num 2), ("a", .num 1)]

/-- A ConfigMap that sets the tunnel flag to "false". -/
def cmTunnelFalse : ConfigMap := ⟨[(RavenEnableTunnel, "false")]⟩

/-- A node carrying a valid public-IP label. -/
def nodePub : Node :=
  ⟨"node-a", [(LabelNodeProviderPublicIP, "20.30.40.50")], 1700000000, []⟩

/-- A node whose candidate label has the value "false" and whose public-IP
label is valid. -/
def nodeCand : Node :=
  ⟨"node-b",
   [(LabelEndpointCandidate, "false"), (LabelNodeProviderPublicIP, "20.30.40.50")],
   1700000001, []⟩

theorem strLeB_total (a b : List Char) : strLeB a b = true ∨ strLeB b a = true := by
  induction a generalizing b with
  | nil => left; rfl
  | cons c cs ih =>
    cases b with
    | nil => right; rfl
    | cons d ds =>
      rcases Nat.lt_trichotomy c.toNat d.toNat with h | h | h
      · left; simp [strLeB, h]
      · rcases ih ds with h' | h' <;> [left; right] <;>
          simp [strLeB, h, h', Nat.lt_irrefl]
      · right; simp [strLeB, h, Nat.lt_asymm h]

theorem strLeB_trans {a b c : List Char} (h1 : strLeB a b = true)
    (h2 : strLeB b c = true) : strLeB a c = true := by
  induction a generalizing b c with
  | nil => rfl
  | cons x xs ih =>
    cases b with
    | nil => simp [strLeB] at h1
    | cons y ys =>
      cases c with
      | nil => simp [strLeB] at h2
      | cons z zs =>
        simp only [strLeB] at h1 h2 ⊢
        rcases Nat.lt_trichotomy x.toNat y.toNat with hxy | hxy | hxy
        · rcases Nat.lt_trichotomy y.toNat z.toNat with hyz | hyz | hyz
          · rw [if_pos (show x.toNat < z.toNat by omega)]
          · rw [if_pos (show x.toNat < z.toNat by omega)]
          · rw [if_neg (show ¬y.toNat < z.toNat by omega), if_pos hyz] at h2
            exact absurd h2 (by decide)
        · rcases Nat.lt_trichotomy y.toNat z.toNat with hyz | hyz | hyz
          · rw [if_pos (show x.toNat < z.toNat by omega)]
          · rw [if_neg (show ¬x.toNat < y.toNat by omega),
              if_neg (show ¬y.toNat < x.toNat by omega)] at h1
            rw [if_neg (show ¬y.toNat < z.toNat by omega),
              if_neg (show ¬z.toNat < y.toNat by omega)] at h2
            rw [if_neg (show ¬x.toNat < z.toNat by omega),
              if_neg (show ¬z.toNat < x.toNat by omega)]
            exact ih h1 h2
          · rw [if_neg (show ¬y.toNat < z.toNat by omega), if_pos hyz] at h2
            exact absurd h2 (by decide)
        · rw [if_neg (show ¬x.toNat < y.toNat by omega), if_pos hxy] at h1
          exact absurd h1 (by decide)

theorem charToNat_inj {c d : Char} (h : c.toNat = d.toNat) : c = d := by
  cases c; cases d
  simp only [Char.toNat] at h
  congr 1
  exact UInt32.ext h

theorem strLeB_antisymm {a b : List Char} (h1 : strLeB a b = true)
    (h2 : strLeB b a = true) : a = b := by
  induction a generalizing b with
  | nil =>
    cases b with
    | nil => rfl
    | cons d ds => simp [strLeB] at h2
  | cons c cs ih =>
    cases b with
    | nil => simp [strLeB] at h1
    | cons d ds =>
      simp only [strLeB] at h1 h2
      by_cases hcd : c.toNat < d.toNat
      · simp [hcd, Nat.lt_asymm hcd] at h2
      · by_cases hdc : d.toNat < c.toNat
        · simp [hcd, hdc] at h1
        · simp only [hcd, hdc, if_false, if_neg, if_true] at h1 h2
          have : c = d := charToNat_inj (by omega)
          simp [this, ih h1 h2]

theorem strLtB_of_le_of_ne {a b : List Char} (h1 : strLeB a b = true)
    (h2 : a ≠ b) : strLtB a b = true := by
  induction a generalizing b with
  | nil =>
    cases b with
    | nil => exact absurd rfl h2
    | cons d ds => rfl
  | cons c cs ih =>
    cases b with
    | nil => simp [strLeB] at h1
    | cons d ds =>
      simp only [strLeB] at h1
      simp only [strLtB]
      by_cases hcd : c.toNat < d.toNat
      · simp [hcd]
      · by_cases hdc : d.toNat < c.toNat
        · simp [hcd, hdc] at h1
        · have hc : c = d := charToNat_inj (by omega)
          simp only [hcd, hdc, if_false, if_neg, if_true] at h1 ⊢
          subst hc
          exact ih h1 (fun he => h2 (by simp [he]))

theorem strLtB_asymm {a b : List Char} (h1 : strLtB a b = true)
    (h2 : strLtB b a = true) : False := by
  induction a generalizing b with
  | nil =>
    cases b with
    | nil => simp [strLtB] at h1
    | cons d ds => simp [strLtB] at h2
  | cons c cs ih =>
    cases b with
    | nil => simp [strLtB] at h1
    | cons d ds =>
      simp only [strLtB] at h1 h2
      by_cases hcd : c.toNat < d.toNat
      · simp [Nat.lt_asymm hcd, hcd] at h2
      · by_cases hdc : d.toNat < c.toNat
        · simp [hcd, hdc] at h1
        · simp only [hcd, hdc, if_false, if_neg, if_true] at h1 h2
          exact ih h1 h2

instance : IsTotal (String × Value) keyLE :=
  ⟨fun p q => strLeB_total p.1.toList q.1.toList⟩

instance : IsTrans (String × Value) keyLE :=
  ⟨fun _ _ _ h h' => strLeB_trans h h'⟩

instance : IsAntisymm (String × Value) keyLT :=
  ⟨fun _ _ h h' => absurd (strLtB_asymm h h') not_false⟩

theorem sortPairs_perm (l : List (String × Value)) : List.Perm (sortPairs l) l :=
  List.perm_insertionSort keyLE l

theorem sortPairs_sorted (l : List (String × Value)) : List.Sorted keyLE (sortPairs l) :=
  List.sorted_insertionSort keyLE l

theorem keyLT_of_keyLE_ne {p q : String × Value} (hle : keyLE p q) (hne : p.1 ≠ q.1) :
    keyLT p q := by
  refine strLtB_of_le_of_ne hle (fun he => hne ?_)
  have : p.1.toList = q.1.toList := he
  exact String.ext (by simpa [String.toList] using this)

theorem sorted_keyLT {l : List (String × Value)} (hs : List.Sorted keyLE l)
    (hn : (l.map Prod.fst).Nodup) : List.Sorted keyLT l := by
  have hne : l.Pairwise (fun p q : String × Value => p.1 ≠ q.1) := by
    rw [List.Nodup, List.pairwise_map] at hn
    exact hn
  exact (hs.and hne).imp (fun h => keyLT_of_keyLE_ne h.1 h.2)

theorem sortPairs_eq_of_perm {l1 l2 : List (String × Value)} (hp : List.Perm l1 l2)
    (hn : (l1.map Prod.fst).Nodup) : sortPairs l1 = sortPairs l2 := by
  have hp' : List.Perm (sortPairs l1) (sortPairs l2) :=
    ((sortPairs_perm l1).trans hp).trans (sortPairs_perm l2).symm
  have hn1 : ((sortPairs l1).map Prod.fst).Nodup :=
    (((sortPairs_perm l1).map Prod.fst).nodup_iff).mpr hn
  have hn2 : ((sortPairs l2).map Prod.fst).Nodup :=
    ((hp'.map Prod.fst).nodup_iff).mp hn1
  exact List.eq_of_perm_of_sorted hp'
    (sorted_keyLT (sortPairs_sorted l1) hn1)
    (sorted_keyLT (sortPairs_sorted l2) hn2)

/-- Structural induction principle for the nested inductive `Value`. -/
theorem Value.strongInd (motive : Value → Prop)
    (hnull : motive .null) (hbool : ∀ b, motive (.bool b))
    (hnum : ∀ n, motive (.num n)) (hstr : ∀ s, motive (.str s))
    (harr : ∀ xs, (∀ x ∈ xs, motive x) → motive (.arr xs))
    (hobj : ∀ kvs, (∀ p ∈ kvs, motive p.2) → motive (.obj kvs)) :
    ∀ v, motive v := by
  have main : ∀ n v, sizeOf v ≤ n → motive v := by
    intro n
    induction n with
    | zero =>
      intro v hv
      cases v <;> simp_all
    | succ n ih =>
      intro v hv
      cases v with
      | null => exact hnull
      | bool b => exact hbool b
      | num m => exact hnum m
      | str s => exact hstr s
      | arr xs =>
        refine harr xs (fun x hx => ih x ?_)
        have h1 : sizeOf x < sizeOf xs := List.sizeOf_lt_of_mem hx
        have h2 : sizeOf (Value.arr xs) = 1 + sizeOf xs := by simp
        omega
      | obj kvs =>
        refine hobj kvs (fun p hp => ih p.2 ?_)
        have h1 : sizeOf p < sizeOf kvs := List.sizeOf_lt_of_mem hp
        have h2 : sizeOf (Value.obj kvs) = 1 + sizeOf kvs := by simp
        have h3 : sizeOf p.2 < sizeOf p := by
          obtain ⟨a, b⟩ := p
          simp
        omega
  exact fun v => main (sizeOf v) v le_rfl

theorem lookup_eq_some_mem {α : Type} {l : List (String × α)} {k : String} {w : α}
    (h : l.lookup k = some w) : (k, w) ∈ l := by
  induction l with
  | nil => simp [List.lookup] at h
  | cons p t ih =>
    obtain ⟨k', v'⟩ := p
    cases hbeq : (k == k') with
    | false =>
      have ht := ih (by simpa [List.lookup, hbeq] using h)
      exact List.mem_cons_of_mem _ ht
    | true =>
      have hk : k = k' := by simpa using hbeq
      have hw : v' = w := by simpa [List.lookup, hbeq] using h
      simp [hk, hw]

theorem mem_lookup_of_nodup {α : Type} {l : List (String × α)} {k : String} {w : α}
    (hn : (l.map Prod.fst).Nodup) (hm : (k, w) ∈ l) : l.lookup k = some w := by
  induction l with
  | nil => simp at hm
  | cons p t ih =>
    obtain ⟨k', v'⟩ := p
    simp only [List.map_cons, List.nodup_cons] at hn
    rcases List.mem_cons.mp hm with he | ht
    · injection he with h1 h2
      subst h1
      subst h2
      simp [List.lookup]
    · have hk : k ≠ k' := by
        rintro rfl
        exact hn.1 (List.mem_map_of_mem Prod.fst ht)
      have hbeq : (k == k') = false := beq_eq_false_iff_ne.mpr hk
      simp [List.lookup, hbeq, ih hn.2 ht]

theorem wfL_mem {xs : List Value} (h : wfL xs = true) {x : Value} (hx : x ∈ xs) :
    wfV x = true := by
  induction xs with
  | nil => simp at hx
  | cons v t ih =>
    simp only [wfL, Bool.and_eq_true] at h
    rcases List.mem_cons.mp hx with rfl | hx'
    · exact h.1
    · exact ih h.2 hx'

theorem wfP_mem {l : List (String × Value)} (h : wfP l = true) {p : String × Value}
    (hp : p ∈ l) : wfV p.2 = true := by
  induction l with
  | nil => simp at hp
  | cons q t ih =>
    obtain ⟨k, v⟩ := q
    simp only [wfP, Bool.and_eq_true] at h
    rcases List.mem_cons.mp hp with rfl | hp'
    · exact h.1
    · exact ih h.2 hp'

theorem nodupKeys_iff {l : List String} : nodupKeys l = true ↔ l.Nodup := by
  induction l with
  | nil => simp [nodupKeys]
  | cons k t ih =>
    simp [nodupKeys, ih, List.nodup_cons, List.elem_iff]

theorem canonP_eq_map (l : List (String × Value)) :
    canonP l = l.map (fun p => (p.1, canonV p.2)) := by
  induction l with
  | nil => rfl
  | cons p t ih =>
    obtain ⟨k, v⟩ := p
    simp [canonP, ih]

theorem keys_canonP (l : List (String × Value)) :
    (canonP l).map Prod.fst = l.map Prod.fst := by
  rw [canonP_eq_map, List.map_map]
  rfl

theorem canonL_eq_map (xs : List Value) : canonL xs = xs.map canonV := by
  induction xs with
  | nil => rfl
  | cons v t ih => simp [canonL, ih]

theorem mem_canonP {l : List (String × Value)} {k : String} {x : Value} :
    (k, x) ∈ canonP l ↔ ∃ v, (k, v) ∈ l ∧ x = canonV v := by
  rw [canonP_eq_map]
  constructor
  · intro h
    obtain ⟨p, hp, he⟩ := List.mem_map.mp h
    obtain ⟨k', v⟩ := p
    simp only [Prod.mk.injEq] at he
    obtain ⟨rfl, rfl⟩ := he
    exact ⟨v, hp, rfl⟩
  · rintro ⟨v, hv, rfl⟩
    exact List.mem_map.mpr ⟨(k, v), hv, rfl⟩

theorem semEqP_lookup {l1 l2 : List (String × Value)} (h : semEqP l1 l2 = true)
    {k : String} {v : Value} (hm : (k, v) ∈ l1) :
    ∃ w, l2.lookup k = some w ∧ semEqV v w = true := by
  induction l1 with
  | nil => simp at hm
  | cons p t ih =>
    obtain ⟨k', v'⟩ := p
    simp only [semEqP, Bool.and_eq_true] at h
    rcases List.mem_cons.mp hm with he | ht
    · injection he with he1 he2
      subst he1
      subst he2
      have h1 := h.1
      cases hlk : l2.lookup k with
      | none => rw [hlk] at h1; simp at h1
      | some w =>
        rw [hlk] at h1
        exact ⟨w, rfl, h1⟩
    · exact ih h.2 ht

theorem canonL_of_semEqL {xs : List Value}
    (IH : ∀ x ∈ xs, ∀ y, wfV x = true → wfV y = true → semEqV x y = true →
      canonV x = canonV y) :
    ∀ ys, wfL xs = true → wfL ys = true → semEqL xs ys = true → canonL xs = canonL ys := by
  induction xs with
  | nil =>
    intro ys _ _ h
    cases ys with
    | nil => rfl
    | cons y t => simp [semEqL] at h
  | cons x t ih =>
    intro ys hwx hwy h
    cases ys with
    | nil => simp [semEqL] at h
    | cons y ty =>
      simp only [semEqL, Bool.and_eq_true] at h
      simp only [wfL, Bool.and_eq_true] at hwx hwy
      simp only [canonL]
      rw [IH x (by simp) y hwx.1 hwy.1 h.1,
        ih (fun x hx => IH x (List.mem_cons_of_mem _ hx)) ty hwx.2 hwy.2 h.2]

theorem canonObj_of_semEqP {l1 l2 : List (String × Value)}
    (IH : ∀ p ∈ l1, ∀ y, wfV p.2 = true → wfV y = true → semEqV p.2 y = true →
      canonV p.2 = canonV y)
    (hlen : l1.length = l2.length)
    (hn1 : (l1.map Prod.fst).Nodup) (hn2 : (l2.map Prod.fst).Nodup)
    (hw1 : wfP l1 = true) (hw2 : wfP l2 = true)
    (h : semEqP l1 l2 = true) :
    sortPairs (canonP l1) = sortPairs (canonP l2) := by
  have hsub : l1.map Prod.fst ⊆ l2.map Prod.fst := by
    intro k hk
    obtain ⟨p, hp, he⟩ := List.mem_map.mp hk
    obtain ⟨k', v⟩ := p
    have hk' : k' = k := he
    subst hk'
    obtain ⟨w, hlk, _⟩ := semEqP_lookup h hp
    have hmem2 : (k', w) ∈ l2 := lookup_eq_some_mem hlk
    exact List.mem_map_of_mem Prod.fst hmem2
  have hkeysperm : List.Perm (l1.map Prod.fst) (l2.map Prod.fst) := by
    apply List.Subperm.perm_of_length_le (List.subperm_of_subset hn1 hsub)
    simp [hlen]
  have hnp1keys : ((canonP l1).map Prod.fst).Nodup := by
    rw [keys_canonP]; exact hn1
  have hnp2keys : ((canonP l2).map Prod.fst).Nodup := by
    rw [keys_canonP]; exact hn2
  have hpairs : List.Perm (canonP l1) (canonP l2) := by
    apply (List.perm_ext_iff_of_nodup (hnp1keys.of_map Prod.fst)
      (hnp2keys.of_map Prod.fst)).mpr
    intro a
    obtain ⟨k, x⟩ := a
    constructor
    · intro hmem
      obtain ⟨v, hv, rfl⟩ := mem_canonP.mp hmem
      obtain ⟨w, hlk, hsem⟩ := semEqP_lookup h hv
      have hwmem := lookup_eq_some_mem hlk
      rw [IH (k, v) hv w (wfP_mem hw1 hv) (wfP_mem hw2 hwmem) hsem]
      exact mem_canonP.mpr ⟨w, hwmem, rfl⟩
    · intro hmem
      obtain ⟨w, hw, rfl⟩ := mem_canonP.mp hmem
      have hk2 : k ∈ l2.map Prod.fst := List.mem_map_of_mem Prod.fst hw
      have hk1 : k ∈ l1.map Prod.fst := hkeysperm.mem_iff.mpr hk2
      obtain ⟨p, hp, hpe⟩ := List.mem_map.mp hk1
      obtain ⟨k', v⟩ := p
      have hk' : k' = k := hpe
      subst hk'
      obtain ⟨w', hlk, hsem⟩ := semEqP_lookup h hp
      have hww : w' = w := by
        have h2 := mem_lookup_of_nodup hn2 hw
        rw [hlk] at h2
        injection h2
      subst hww
      rw [← IH (k', v) hp w' (wfP_mem hw1 hp) (wfP_mem hw2 hw) hsem]
      exact mem_canonP.mpr ⟨v, hp, rfl⟩
  exact sortPairs_eq_of_perm hpairs hnp1keys

theorem canonV_eq_of_semEq :
    ∀ v1, ∀ v2, wfV v1 = true → wfV v2 = true → semEqV v1 v2 = true →
      canonV v1 = canonV v2 := by
  intro v1
  induction v1 using Value.strongInd with
  | hnull =>
    intro v2 _ _ h
    cases v2 <;> simp [semEqV] at h ⊢
  | hbool b =>
    intro v2 _ _ h
    cases v2 <;> simp [semEqV] at h
    simp [h]
  | hnum n =>
    intro v2 _ _ h
    cases v2 <;> simp [semEqV] at h
    simp [h]
  | hstr s =>
    intro v2 _ _ h
    cases v2 <;> simp [semEqV] at h
    simp [h]
  | harr xs IH =>
    intro v2 hw1 hw2 h
    cases v2 with
    | null => simp [semEqV] at h
    | bool b => simp [semEqV] at h
    | num n => simp [semEqV] at h
    | str s => simp [semEqV] at h
    | obj l2 => simp [semEqV] at h
    | arr ys =>
      simp only [semEqV] at h
      simp only [canonV]
      rw [canonL_of_semEqL IH ys (by simpa [wfV] using hw1) (by simpa [wfV] using hw2) h]
  | hobj kvs IH =>
    intro v2 hw1 hw2 h
    cases v2 with
    | null => simp [semEqV] at h
    | bool b => simp [semEqV] at h
    | num n => simp [semEqV] at h
    | str s => simp [semEqV] at h
    | arr ys => simp [semEqV] at h
    | obj l2 =>
      simp only [semEqV, Bool.and_eq_true, beq_iff_eq] at h
      simp only [wfV, Bool.and_eq_true] at hw1 hw2
      simp only [canonV]
      rw [canonObj_of_semEqP IH h.1 (nodupKeys_iff.mp hw1.1) (nodupKeys_iff.mp hw2.1)
        hw1.2 hw2.2 h.2]

theorem canonP_orderedInsert (p : String × Value) (l : List (String × Value)) :
    canonP (List.orderedInsert keyLE p l) =
      List.orderedInsert keyLE (p.1, canonV p.2) (canonP l) := by
  induction l with
  | nil => rfl
  | cons q t ih =>
    obtain ⟨kq, vq⟩ := q
    obtain ⟨kp, vp⟩ := p
    by_cases hle : keyLE (kp, vp) (kq, vq)
    · have hle' : keyLE (kp, canonV vp) (kq, canonV vq) := hle
      simp only [List.orderedInsert, if_pos hle, canonP, if_pos hle']
    · have hle' : ¬keyLE (kp, canonV vp) (kq, canonV vq) := hle
      simp only [List.orderedInsert, if_neg hle, canonP, if_neg hle']
      rw [ih]

theorem canonP_sortPairs (l : List (String × Value)) :
    canonP (sortPairs l) = sortPairs (canonP l) := by
  induction l with
  | nil => rfl
  | cons q t ih =>
    obtain ⟨k, v⟩ := q
    simp only [sortPairs, List.insertionSort, canonP] at ih ⊢
    rw [canonP_orderedInsert, ih]

theorem sortPairs_idem (l : List (String × Value)) :
    sortPairs (sortPairs l) = sortPairs l :=
  List.Sorted.insertionSort_eq (sortPairs_sorted l)

theorem canonV_idem : ∀ v, canonV (canonV v) = canonV v := by
  intro v
  induction v using Value.strongInd with
  | hnull => rfl
  | hbool b => rfl
  | hnum n => rfl
  | hstr s => rfl
  | harr xs IH =>
    simp only [canonV, canonL_eq_map, List.map_map]
    congr 1
    exact List.map_congr_left (fun x hx => IH x hx)
  | hobj kvs IH =>
    simp only [canonV]
    rw [canonP_sortPairs]
    have hpp : canonP (canonP kvs) = canonP kvs := by
      rw [canonP_eq_map, canonP_eq_map, List.map_map]
      exact List.map_congr_left (fun p hp => by simp [IH p hp])
    rw [hpp, sortPairs_idem]

theorem chainKeysLe_of_sorted {l : List (String × Value)}
    (hs : List.Sorted keyLE l) : chainKeysLe (l.map Prod.fst) = true := by
  induction l with
  | nil => rfl
  | cons p t ih =>
    rw [List.sorted_cons] at hs
    cases t with
    | nil => rfl
    | cons q t' =>
      have h1 : keyLE p q := hs.1 q (by simp)
      have h2 := ih hs.2
      simp only [List.map_cons, chainKeysLe, Bool.and_eq_true] at h2 ⊢
      exact ⟨h1, h2⟩

theorem keysSortedL_of_forall {xs : List Value}
    (h : ∀ x ∈ xs, keysSortedV x = true) : keysSortedL xs = true := by
  induction xs with
  | nil => rfl
  | cons v t ih =>
    simp only [keysSortedL, Bool.and_eq_true]
    exact ⟨h v (by simp), ih (fun x hx => h x (List.mem_cons_of_mem _ hx))⟩

theorem keysSortedP_of_forall {l : List (String × Value)}
    (h : ∀ p ∈ l, keysSortedV p.2 = true) : keysSortedP l = true := by
  induction l with
  | nil => rfl
  | cons q t ih =>
    obtain ⟨k, v⟩ := q
    simp only [keysSortedP, Bool.and_eq_true]
    exact ⟨h (k, v) (by simp), ih (fun p hp => h p (List.mem_cons_of_mem _ hp))⟩

theorem keysSortedV_canonV : ∀ v, keysSortedV (canonV v) = true := by
  intro v
  induction v using Value.strongInd with
  | hnull => rfl
  | hbool b => rfl
  | hnum n => rfl
  | hstr s => rfl
  | harr xs IH =>
    simp only [canonV, keysSortedV, canonL_eq_map]
    apply keysSortedL_of_forall
    intro x hx
    obtain ⟨y, hy, rfl⟩ := List.mem_map.mp hx
    exact IH y hy
  | hobj kvs IH =>
    simp only [canonV, keysSortedV, Bool.and_eq_true]
    refine ⟨chainKeysLe_of_sorted (sortPairs_sorted (canonP kvs)), ?_⟩
    apply keysSortedP_of_forall
    intro p hp
    have hp' : p ∈ canonP kvs := (sortPairs_perm (canonP kvs)).mem_iff.mp hp
    obtain ⟨k, x⟩ := p
    obtain ⟨w, hw, rfl⟩ := mem_canonP.mp hp'
    exact IH (k, w) hw

/-- C1: key-order independence of the hash.  Two well-formed generic values
that are semantically equal (same key/value bindings at every object,
regardless of entry order, as tested by `semEqV`) hash to the same digest
string under `HashObject`. -/
theorem hashObject_key_order_independence (v1 v2 : Value)
    (hw1 : wfV v1 = true) (hw2 : wfV v2 = true) (h : semEqV v1 v2 = true) :
    HashObject (.ok v1) = HashObject (.ok v2) := by
  simp only [HashObject, jsonRoundTrip, PrettyYaml]
  rw [canonV_eq_of_semEq v1 v2 hw1 hw2 h]

theorem hashObject_key_order_independence_witness :
    wfV exOrdA = true ∧ wfV exOrdB = true ∧ semEqV exOrdA exOrdB = true ∧
      HashObject (.ok exOrdA) = HashObject (.ok exOrdB) :=
  ⟨by decide, by decide, by decide,
    hashObject_key_order_independence exOrdA exOrdB (by decide) (by decide) (by decide)⟩

/-- C2: determinism of the hash.  The canonical form a value is serialized
from has every object's keys in stable lexicographically sorted order, and
hashing a value gives the same string as hashing its canonical
representative: the digest depends only on the logical value, not on the
entry order the re-encoding step happens to expose. -/
theorem hashObject_deterministic_canonical (v : Value) :
    keysSortedV (jsonRoundTrip v) = true ∧
      HashObject (.ok (jsonRoundTrip v)) = HashObject (.ok v) := by
  refine ⟨keysSortedV_canonV v, ?_⟩
  simp only [HashObject, jsonRoundTrip, PrettyYaml]
  rw [canonV_idem]

theorem hexDigit_facts {n : Nat} (h : n < 16) :
    isLowerHex (hexDigit n) = true ∧ Char.toLower (hexDigit n) = hexDigit n := by
  interval_cases n <;> exact ⟨by decide, by decide⟩

theorem hexCat_length (bs : List Nat) : (hexCat bs).length = 2 * bs.length := by
  induction bs with
  | nil => rfl
  | cons b t ih =>
    simp only [hexCat, hexByte, List.length_append, List.length_cons, List.length_nil,
      List.cons_append, List.nil_append, ih]
    omega

theorem mem_hexCat {bs : List Nat} {c : Char} (h : c ∈ hexCat bs) :
    isLowerHex c = true ∧ Char.toLower c = c := by
  induction bs with
  | nil => simp [hexCat] at h
  | cons b t ih =>
    simp only [hexCat, List.mem_append] at h
    rcases h with h | h
    · simp only [hexByte, List.mem_cons, List.not_mem_nil, or_false] at h
      rcases h with rfl | rfl <;> exact hexDigit_facts (Nat.mod_lt _ (by norm_num))
    · exact ih h

theorem computeHash_length (s : String) : (computeHash s).length = 56 := by
  have h1 : ∀ l : List Char, (String.mk l).length = l.length := fun l => rfl
  simp only [computeHash, h1, List.length_map, hexCat_length]
  have h2 : (sha224Bytes (utf8Bytes s.toList)).length = 28 := by
    simp [sha224Bytes, wordBytes]
  rw [h2]

theorem computeHash_chars (s : String) :
    (computeHash s).data.all isLowerHex = true := by
  simp only [computeHash]
  show ((hexCat (sha224Bytes (utf8Bytes s.toList))).map Char.toLower).all isLowerHex = true
  rw [List.all_eq_true]
  intro c hc
  obtain ⟨c', hc', rfl⟩ := List.mem_map.mp hc
  have hf := mem_hexCat hc'
  rw [hf.2]
  exact hf.1

/-- C3: output format of the hash.  For every input string, `computeHash`
returns a string of exactly 56 characters, each a lowercase hexadecimal
digit: the hex encoding of a 224-bit digest. -/
theorem computeHash_hex_format (s : String) :
    (computeHash s).length = 56 ∧ (computeHash s).data.all isLowerHex = true :=
  ⟨computeHash_length s, computeHash_chars s⟩

/-- C4 (amended): totality of the hash.  `HashObject` is total: for every
argument, marshalable or not, it returns a 56-character lowercase-hex digest
string and never surfaces an error; in particular hashing the empty object
and hashing null both succeed, with the nonempty canonical forms rendered
from the empty-object and null documents respectively. -/
theorem hashObject_total_wellformed :
    (∀ x : GoAny, (HashObject x).length = 56 ∧ (HashObject x).data.all isLowerHex = true) ∧
      HashObject (.ok (Value.obj [])) = computeHash "\x7b\x7d\n" ∧
      HashObject (.ok Value.null) = computeHash "null\n" := by
  refine ⟨fun x => ?_, by decide, by decide⟩
  cases x with
  | ok v => exact ⟨computeHash_length _, computeHash_chars _⟩
  | bad => exact ⟨computeHash_length _, computeHash_chars _⟩

/-- C4 counterexample: the empty object and null do not both degrade to an
empty canonical form.  Their canonical texts are nonempty and distinct, and
the two digests differ. -/
theorem hashObject_empty_canonical_refuted :
    PrettyYaml (jsonRoundTrip (Value.obj [])) ≠ "" ∧
      PrettyYaml (jsonRoundTrip Value.null) ≠ "" ∧
      HashObject (.ok (Value.obj [])) ≠ HashObject (.ok Value.null) :=
  ⟨by decide, by decide, by decide⟩

theorem internalIPLoop_eq_find (l : List NodeAddress) :
    internalIPLoop l = (match l.find? internalIPPred with
      | some addr => addr.address
      | none => "") := by
  induction l with
  | nil => rfl
  | cons a t ih =>
    by_cases hp : (a.type == NodeInternalIP && goParseIP a.address) = true
    · have hp1 : internalIPPred a = true := hp
      rw [internalIPLoop, if_pos hp, List.find?_cons_of_pos t hp1]
    · have hp2 : internalIPPred a = false := by
        have := hp
        simp only [Bool.not_eq_true] at this
        exact this
      rw [internalIPLoop, if_neg hp, List.find?_cons_of_neg t (by simp [hp2]), ih]

/-- C5: for every node, `GetNodeInternalIP` returns the address of the first
entry of the status address list whose type is the internal-IP type and
whose address is a valid IP literal, and the empty string when no such entry
exists. -/
theorem getNodeInternalIP_first_valid (node : Node) :
    GetNodeInternalIP node = (match node.addresses.find? internalIPPred with
      | some addr => addr.address
      | none => "") :=
  internalIPLoop_eq_find node.addresses

/-- C6: `GetEdgeNodePublicIP` fails exactly when the public-IP label is
absent or its value is not a valid IP literal; when the label holds a valid
IP it is returned without error. -/
theorem getEdgeNodePublicIP_error_iff (node : Node) :
    ((∃ e, GetEdgeNodePublicIP node = .error e) ↔
      node.labels.lookup LabelNodeProviderPublicIP = none ∨
        ∃ ip, node.labels.lookup LabelNodeProviderPublicIP = some ip ∧
          goParseIP ip = false) ∧
    ∀ ip, node.labels.lookup LabelNodeProviderPublicIP = some ip →
      goParseIP ip = true → GetEdgeNodePublicIP node = .ok ip := by
  cases hl : node.labels.lookup LabelNodeProviderPublicIP with
  | none => simp [GetEdgeNodePublicIP, hl]
  | some ip0 =>
    cases hv : goParseIP ip0 with
    | false => simp [GetEdgeNodePublicIP, hl, hv]
    | true => simp [GetEdgeNodePublicIP, hl, hv]

theorem getEdgeNodePublicIP_error_iff_witness :
    GetEdgeNodePublicIP nodePub = .ok "20.30.40.50" :=
  (getEdgeNodePublicIP_error_iff nodePub).2 "20.30.40.50" (by decide) (by decide)

/-- C9: implicit invariant of `CheckServer`: whatever the configuration state
is (resource absent, key absent, or key present with any value), the
returned enableTunnel component is always true. -/
theorem checkServer_tunnel_always_true (cm : Option ConfigMap) :
    (CheckServer cm).2 = true := by
  cases cm with
  | none => rfl
  | some c =>
    cases hl : c.data.lookup RavenEnableTunnel with
    | none => simp [CheckServer, hl, DefaultEnableL3Tunnel, DefaultEnableL7Proxy]
    | some val => simp [CheckServer, hl, DefaultEnableL3Tunnel, DefaultEnableL7Proxy]

/-- C8 counterexample: with the tunnel key present holding "false", the
returned tunnel flag is true while the case-insensitive match of the value
against "true" is false, so a present value's match does not determine the
returned boolean. -/
theorem checkServer_match_determines_refuted : ¬ checkServerClaimC8 := fun h =>
  absurd ((h.2 cmTunnelFalse).2.2.2 "false" (by decide)) (by decide)

/-- C8 (amended): `CheckServer` reads the two flags with their fixed defaults
(tunnel enabled, proxy disabled) when the resource or key is absent; a
present value case-insensitively equal to "true" sets the flag to true and
any other present value leaves the default, so the returned proxy flag
equals the match result while the returned tunnel flag is always true. -/
theorem checkServer_amended_semantics (cm : Option ConfigMap) :
    CheckServer cm = (proxyFlagSpec cm, true) := by
  cases cm with
  | none => rfl
  | some c =>
    cases hp : c.data.lookup RavenEnableProxy with
    | none =>
      cases ht : c.data.lookup RavenEnableTunnel with
      | none =>
        simp [CheckServer, proxyFlagSpec, hp, ht, DefaultEnableL3Tunnel, DefaultEnableL7Proxy]
      | some tv =>
        simp [CheckServer, proxyFlagSpec, hp, ht, DefaultEnableL3Tunnel, DefaultEnableL7Proxy]
    | some pv =>
      by_cases hm : (toLowerStr pv == "true") = true
      · cases ht : c.data.lookup RavenEnableTunnel with
        | none =>
          simp [CheckServer, proxyFlagSpec, hp, ht, hm, DefaultEnableL3Tunnel,
            DefaultEnableL7Proxy]
        | some tv =>
          simp [CheckServer, proxyFlagSpec, hp, ht, hm, DefaultEnableL3Tunnel,
            DefaultEnableL7Proxy]
      · have hm1 : (toLowerStr pv == "true") = false := by simpa using hm
        cases ht : c.data.lookup RavenEnableTunnel with
        | none =>
          simp [CheckServer, proxyFlagSpec, hp, ht, hm1, DefaultEnableL3Tunnel,
            DefaultEnableL7Proxy]
        | some tv =>
          simp [CheckServer, proxyFlagSpec, hp, ht, hm1, DefaultEnableL3Tunnel,
            DefaultEnableL7Proxy]

/-- C10: `TryCreateActiveEndpointCandidate` fails exactly when the candidate
label is absent or the public-IP lookup fails; the candidate label's value is
never inspected, and on success the endpoint carries the node name, the
label's public IP, UnderNAT false, the tunnel type, the default tunnel
server exposed port, and a config map holding the node's creation
timestamp. -/
theorem tryCreateActiveEndpointCandidate_spec (node : Node) :
    (node.labels.lookup LabelEndpointCandidate = none →
      TryCreateActiveEndpointCandidate node =
        .error ("node does not have candidate label " ++ LabelEndpointCandidate)) ∧
    ∀ v, node.labels.lookup LabelEndpointCandidate = some v →
      (∀ e, GetEdgeNodePublicIP node = .error e →
        TryCreateActiveEndpointCandidate node =
          .error ("node missing public ip with label " ++ LabelNodeProviderPublicIP ++
            ": " ++ e)) ∧
      ∀ ip, GetEdgeNodePublicIP node = .ok ip →
        TryCreateActiveEndpointCandidate node =
          .ok { nodeName := node.name, publicIP := ip, underNAT := false,
                epType := TunnelType, port := DefaultTunnelServerExposedPort,
                config := [(ConfigCreationTimestampKey,
                  toString node.creationTimestamp)] } := by
  refine ⟨fun hl => ?_, fun v hl => ⟨fun e he => ?_, fun ip hip => ?_⟩⟩
  · simp [TryCreateActiveEndpointCandidate, hl]
  · simp [TryCreateActiveEndpointCandidate, hl, he]
  · simp [TryCreateActiveEndpointCandidate, hl, hip]

theorem tryCreateActiveEndpointCandidate_spec_witness :
    IsNodeEndpointCandidate nodeCand = false ∧
      TryCreateActiveEndpointCandidate nodeCand = .ok
        { nodeName := nodeCand.name, publicIP := "20.30.40.50", underNAT := false,
          epType := TunnelType, port := DefaultTunnelServerExposedPort,
          config := [(ConfigCreationTimestampKey,
            toString nodeCand.creationTimestamp)] } :=
  ⟨by decide,
    ((tryCreateActiveEndpointCandidate_spec nodeCand).2 "false" (by decide)).2
      "20.30.40.50" rfl⟩

theorem digitsVal_le {cs : List Char} (acc : Nat) : acc ≤ digitsVal cs acc := by
  induction cs generalizing acc with
  | nil => exact le_rfl
  | cons c t ih =>
    simp only [digitsVal]
    exact le_trans (by omega) (ih (acc * 10 + (c.toNat - 48)))

theorem goParseUintLoop_char {cs : List Char} (hall : cs.all Char.isDigit = true)
    (acc : Nat) (hacc : acc < 2 ^ 64) :
    goParseUintLoop cs acc =
      if digitsVal cs acc < 2 ^ 64 then some (digitsVal cs acc) else none := by
  induction cs generalizing acc with
  | nil =>
    simp only [goParseUintLoop, digitsVal]
    rw [if_pos hacc]
  | cons c t ih =>
    simp only [List.all_cons, Bool.and_eq_true] at hall
    simp only [goParseUintLoop, digitsVal, hall.1, if_true]
    by_cases h2 : 2 ^ 64 ≤ acc * 10 + (c.toNat - 48)
    · rw [if_pos h2]
      have h3 := @digitsVal_le t (acc * 10 + (c.toNat - 48))
      rw [if_neg (by omega)]
    · rw [if_neg h2]
      exact ih hall.2 _ (by omega)

theorem goParseUintLoop_not_digit {cs : List Char} (h : cs.all Char.isDigit = false)
    (acc : Nat) : goParseUintLoop cs acc = none := by
  induction cs generalizing acc with
  | nil => simp at h
  | cons c t ih =>
    cases hd : c.isDigit with
    | false => simp [goParseUintLoop, hd]
    | true =>
      simp only [List.all_cons, hd, Bool.true_and] at h
      simp only [goParseUintLoop, hd, if_true]
      by_cases h2 : 2 ^ 64 ≤ acc * 10 + (c.toNat - 48)
      · rw [if_pos h2]
      · rw [if_neg h2]
        exact ih h _

theorem goParseUintLoop_all_digits {cs : List Char} {acc un : Nat}
    (h : goParseUintLoop cs acc = some un) : cs.all Char.isDigit = true := by
  by_contra hc
  rw [goParseUintLoop_not_digit (by simpa using hc)] at h
  simp at h

theorem specDecimalValList_of_goAtoiList {cs : List Char} {n : Int}
    (h : goAtoiList cs = some n) : specDecimalValList cs = some n := by
  cases cs with
  | nil => simp [goAtoiList] at h
  | cons ch rest =>
    simp only [goAtoiList] at h
    simp only [specDecimalValList]
    by_cases hde : (if ch == '-' || ch == '+' then rest else ch :: rest).isEmpty = true
    · rw [if_pos hde] at h
      simp at h
    · rw [if_neg hde] at h
      split at h
      · simp at h
      · next un heq =>
        have hall := goParseUintLoop_all_digits heq
        have hun : un = digitsVal (if ch == '-' || ch == '+' then rest else ch :: rest) 0 := by
          rw [goParseUintLoop_char hall 0 (by norm_num)] at heq
          by_cases hlt :
              digitsVal (if ch == '-' || ch == '+' then rest else ch :: rest) 0 < 2 ^ 64
          · rw [if_pos hlt] at heq
            exact (Option.some.inj heq).symm
          · rw [if_neg hlt] at heq
            simp at heq
        have hde1 : (if ch == '-' || ch == '+' then rest else ch :: rest).isEmpty = false := by
          simp only [Bool.not_eq_true] at hde
          exact hde
        rw [if_neg (show ¬((if ch == '-' || ch == '+' then rest else ch :: rest).isEmpty
            || !(if ch == '-' || ch == '+' then rest else ch :: rest).all Char.isDigit) = true by
          rw [hde1, hall]
          decide)]
        by_cases hm : (ch == '-') = true
        · rw [if_pos hm]
          simp only [hm, Bool.not_true, Bool.false_and, Bool.false_eq_true, if_false,
            Bool.true_and, if_true] at h
          by_cases hbig : decide (2 ^ 63 < un) = true
          · rw [if_pos hbig] at h
            simp at h
          · rw [if_neg hbig] at h
            rw [hun] at h
            exact h
        · rw [if_neg hm]
          have hm1 : (ch == '-') = false := by simpa using hm
          simp only [hm1, Bool.not_false, Bool.true_and, Bool.false_and, Bool.false_eq_true,
            if_false] at h
          by_cases hbig : decide (2 ^ 63 ≤ un) = true
          · rw [if_pos hbig] at h
            simp at h
          · rw [if_neg hbig] at h
            rw [hun] at h
            exact h

theorem goAtoiList_of_specDecimalValList {cs : List Char} {n : Int}
    (h : specDecimalValList cs = some n) (h0 : 0 ≤ n) (h65 : n ≤ 65535) :
    goAtoiList cs = some n := by
  cases cs with
  | nil => simp [specDecimalValList] at h
  | cons ch rest =>
    simp only [specDecimalValList] at h
    simp only [goAtoiList]
    by_cases hcond : ((if ch == '-' || ch == '+' then rest else ch :: rest).isEmpty
        || !(if ch == '-' || ch == '+' then rest else ch :: rest).all Char.isDigit) = true
    · rw [if_pos hcond] at h
      simp at h
    · rw [if_neg hcond] at h
      have hde : (if ch == '-' || ch == '+' then rest else ch :: rest).isEmpty = false := by
        cases he : (if ch == '-' || ch == '+' then rest else ch :: rest).isEmpty
        · rfl
        · exact absurd (by rw [he]; exact Bool.true_or _) hcond
      have hall : (if ch == '-' || ch == '+' then rest else ch :: rest).all Char.isDigit
          = true := by
        cases hb : (if ch == '-' || ch == '+' then rest else ch :: rest).all Char.isDigit
        · exact absurd (by rw [hb, Bool.not_false]; exact Bool.or_true _) hcond
        · rfl
      rw [if_neg (show ¬(if ch == '-' || ch == '+' then rest
          else ch :: rest).isEmpty = true by rw [hde]; decide)]
      rw [goParseUintLoop_char hall 0 (by norm_num)]
      set ds := if ch == '-' || ch == '+' then rest else ch :: rest with hds
      by_cases hm : (ch == '-') = true
      · rw [if_pos hm] at h
        have hn : n = -(digitsVal ds 0 : Int) := (Option.some.inj h).symm
        have hN0 : digitsVal ds 0 = 0 := by omega
        rw [hN0, if_pos (by norm_num)]
        simp [hm, hn, hN0]
      · have hm1 : (ch == '-') = false := by simpa using hm
        rw [if_neg hm] at h
        have hn : n = (digitsVal ds 0 : Int) := (Option.some.inj h).symm
        rw [if_pos (show digitsVal ds 0 < 2 ^ 64 by omega)]
        simp [hm1, hn]
        omega

/-- C7: `IsValidPort` accepts a string exactly when it parses as a base-10
integer (optional sign, one or more decimal digits) whose value lies in the
range 0 to 65535. -/
theorem isValidPort_iff_base10_range (s : String) :
    IsValidPort s = true ↔
      ∃ n, specDecimalVal s = some n ∧ 0 ≤ n ∧ n ≤ 65535 := by
  constructor
  · intro h
    simp only [IsValidPort] at h
    by_cases hes : (s == "") = true
    · rw [if_pos hes] at h
      simp at h
    · rw [if_neg hes] at h
      split at h
      · simp at h
      · next port heq =>
        by_cases hr : port < 0 ∨ 65535 < port
        · rw [if_pos hr] at h
          simp at h
        · push_neg at hr
          exact ⟨port, specDecimalValList_of_goAtoiList heq, by omega, by omega⟩
  · rintro ⟨n, hspec, h0, h65⟩
    have ha : goAtoi s = some n := goAtoiList_of_specDecimalValList hspec h0 h65
    have hsne : (s == "") = false := by
      apply beq_eq_false_iff_ne.mpr
      rintro rfl
      rw [show specDecimalVal "" = none from rfl] at hspec
      simp at hspec
    simp only [IsValidPort, hsne, Bool.false_eq_true, if_false, ha]
    rw [if_neg (by omega)]



theorem isValidPort_iff_base10_range_witness : IsValidPort "8080" = true :=
  (isValidPort_iff_base10_range "8080").mpr ⟨8080, by decide, by decide, by decide⟩

end RavenUtils
